import Mathlib

/-!
# Verification of the lattigo key-material / multiparty-protocol core

Shallow embedding of the Go sources:
* `ring/poly.go`        — `Poly` (RNS coefficient matrix)
* `ringqp` (part_000)   — `PolyMatrix` level accessors
* `drlwe` (part_001)    — `CKGProtocol` (collective key generation)
* `ckks` (part_002)     — `SimpleBootstrapper.BootstrapMany`
* `rlwe` (part_003)     — `EvaluationKey` family, `MemEvaluationKeySet`,
                          compression / expansion, serialization
* `dbfv/public_permute.go` — `PermuteProtocol`

Machine integers are modelled as `Nat` (Go `uint64` values are `< 2^64`;
where that bound matters it appears as an explicit hypothesis), fallible
operations return `Except`/`Option`, and in-place mutation is modelled by
explicit state passing.
-/

namespace Lattigo

/-- `ring.Poly` (ring/poly.go): RNS coefficient matrix
`Coeffs[modulus-index][coefficient-index]`, entries are Go `uint64`. -/
structure Poly where
  coeffs : List (List Nat)
  deriving DecidableEq, Repr

/-- `Poly.N` (ring/poly.go): number of coefficients of the first limb,
0 for an empty coefficient matrix. -/
def Poly.ringN (p : Poly) : Nat :=
  match p.coeffs with
  | [] => 0
  | c :: _ => c.length

/-- `Poly.Level` (ring/poly.go): number of moduli minus one. -/
def Poly.level (p : Poly) : Int :=
  (p.coeffs.length : Int) - 1

/-- `ring.NewPoly` (ring/poly.go): `level+1` limbs of `N` zero coefficients.
The Go level is an `int`; a negative level (absent chain) yields zero limbs,
which `(level+1).toNat` reproduces. -/
def newPoly (N : Nat) (level : Int) : Poly :=
  ⟨List.replicate (level + 1).toNat (List.replicate N 0)⟩

/-- `ringqp.Poly`: a polynomial split into a Q-chain part and an optional
P-chain part (absent means the P coefficient matrix is empty, level -1). -/
structure PolyQP where
  Q : Poly
  P : Poly
  deriving DecidableEq, Repr

/-- `ringqp.Poly.LevelQ`. -/
def PolyQP.levelQ (p : PolyQP) : Int := p.Q.level

/-- `ringqp.Poly.LevelP`. -/
def PolyQP.levelP (p : PolyQP) : Int := p.P.level

/-- Zero `ringqp.Poly` at the given ring degree and levels. -/
def newPolyQP (N : Nat) (levelQ levelP : Int) : PolyQP :=
  ⟨newPoly N levelQ, newPoly N levelP⟩

/-- `rlwe.VectorQP` (part_003): vector of `ringqp.Poly`. -/
abbrev VectorQP := List PolyQP

/-- `VectorQP.LevelQ` (part_003 lines 112-117): level of the modulus Q of the
first element, -1 if the vector is empty. -/
def VectorQP.levelQ (v : VectorQP) : Int :=
  match v with
  | [] => -1
  | p :: _ => p.levelQ

/-- `VectorQP.LevelP` (part_003 lines 121-126): level of the modulus P of the
first element, -1 if the vector is empty. -/
def VectorQP.levelP (v : VectorQP) : Int :=
  match v with
  | [] => -1
  | p :: _ => p.levelP

/-- `NewVectorQP` (part_003 lines 98-108): `size` zero polynomials at the
given levels. -/
def newVectorQP (N : Nat) (size : Nat) (levelQ levelP : Int) : VectorQP :=
  List.replicate size (newPolyQP N levelQ levelP)

/-- Modelled from the spec: scheme parameters are an external collaborator
("generic scheme parameters" are out of scope). The digit-count computations
(`BaseRNSDecompositionVectorSize` from `levelQ` and the decomposition base,
per-row base-2 digit counts) live in the parameter object; the spec only
requires row count ≥ 1 and per-row column counts, "independently configurable
per digit". `prngA` models the keyed uniform sampler used by `Expand`
(seed → draw position → sampled polynomial). -/
structure Parameters where
  N : Nat
  maxLevelQ : Int
  maxLevelP : Int
  drns : Nat
  dpw2 : Nat → Nat
  prngA : List Nat → Nat → Nat → PolyQP
  nthRoot : Nat

/-- `rlwe.GadgetCiphertext` (modelled from the spec §3: a jagged table
`digits[i][j]` of degree-vectors of ring elements, one row per RNS digit, one
column per base-2 digit, plus the configured base-2 decomposition; the struct
itself is declared outside the excerpt, its shape is fixed by the accessors
used in part_003). -/
structure GadgetCiphertext where
  BaseTwoDecomposition : Nat
  Value : List (List VectorQP)
  deriving DecidableEq, Repr

/-- `GadgetCiphertext.Degree` (modelled from the spec: `degree` ∈ {0,1} is the
length of each degree-vector minus one; read off the first cell). -/
def GadgetCiphertext.Degree (gc : GadgetCiphertext) : Int :=
  match gc.Value with
  | [] => -1
  | [] :: _ => -1
  | (v :: _) :: _ => (List.length v : Int) - 1

/-- `GadgetCiphertext.LevelQ` (modelled from the spec: every element shares the
same `(levelQ, levelP)`; read off the first cell). -/
def GadgetCiphertext.LevelQ (gc : GadgetCiphertext) : Int :=
  match gc.Value with
  | [] => -1
  | [] :: _ => -1
  | (v :: _) :: _ => VectorQP.levelQ v

/-- `GadgetCiphertext.LevelP` (modelled from the spec, as for `LevelQ`). -/
def GadgetCiphertext.LevelP (gc : GadgetCiphertext) : Int :=
  match gc.Value with
  | [] => -1
  | [] :: _ => -1
  | (v :: _) :: _ => VectorQP.levelP v

/-- `GadgetCiphertext.BaseRNSDecompositionVectorSize` (modelled from the spec:
the number of RNS-digit rows). -/
def GadgetCiphertext.BaseRNSDecompositionVectorSize (gc : GadgetCiphertext) : Nat :=
  gc.Value.length

/-- `GadgetCiphertext.BaseTwoDecompositionVectorSize` (modelled from the spec:
the per-row base-2 digit counts, i.e. the column count of each row). -/
def GadgetCiphertext.BaseTwoDecompositionVectorSize (gc : GadgetCiphertext) : List Nat :=
  gc.Value.map List.length

/-- `rlwe.NewGadgetCiphertext` (modelled from the spec §4.1: computes the
RNS-digit count and per-digit base-2 digit counts from the parameters,
allocates the jagged table with all coefficients zero; each cell is a
degree-vector of `degree+1` zero ring elements at `(levelQ, levelP)`). -/
def NewGadgetCiphertext (p : Parameters) (degree : Nat) (levelQ levelP : Int)
    (btd : Nat) : GadgetCiphertext :=
  { BaseTwoDecomposition := btd
    Value := (List.range p.drns).map fun i =>
      (List.range (p.dpw2 i)).map fun _ =>
        newVectorQP p.N (degree + 1) levelQ levelP }

/-- `rlwe.EvaluationKey` (part_003 lines 293-296): a `GadgetCiphertext` plus an
optional 32-byte seed (`Seed *[32]byte`, bytes modelled as `Nat`s). -/
structure EvaluationKey where
  gc : GadgetCiphertext
  Seed : Option (List Nat)
  deriving DecidableEq, Repr

/-- `EvaluationKey.Degree`: promoted from the embedded `GadgetCiphertext`. -/
def EvaluationKey.Degree (evk : EvaluationKey) : Int := evk.gc.Degree

/-- `EvaluationKey.IsCompressed` (part_003 lines 349-351):
`evk.Degree() == 0`. -/
def EvaluationKey.IsCompressed (evk : EvaluationKey) : Bool :=
  evk.Degree == 0

/-- `newEvaluationKey` (part_003 lines 338-346): degree 1, or 0 when
compressed; the `Seed` field is left nil by the allocator. -/
def newEvaluationKey (p : Parameters) (levelQ levelP : Int) (btd : Nat)
    (compressed : Bool) : EvaluationKey :=
  { gc := NewGadgetCiphertext p (if compressed then 0 else 1) levelQ levelP btd
    Seed := none }

/-- Modelled from the spec: the key generator (outside the excerpt — only the
allocator `newEvaluationKey` is in part_003) populates the evaluation key's
coefficients and, when the key is compressed, stores the 32-byte seed of the
keyed PRNG that produced the public-randomness component ("for all keys
constructed compressed ... a seed is present; for all constructed
uncompressed ... the seed is absent"). -/
def genEvaluationKey (p : Parameters) (levelQ levelP : Int) (btd : Nat)
    (compressed : Bool) (seed : List Nat) : EvaluationKey :=
  let evk := newEvaluationKey p levelQ levelP btd compressed
  if compressed then { evk with Seed := some seed } else evk

/-- `rlwe.RelinearizationKey` (part_003 lines 542-544): wraps an
`EvaluationKey`. -/
structure RelinearizationKey where
  evk : EvaluationKey
  deriving DecidableEq, Repr

/-- `newRelinearizationKey` (part_003 lines 553-559): degree 1, or 0 when
compressed; `Seed` left nil by the allocator. -/
def newRelinearizationKey (p : Parameters) (levelQ levelP : Int) (btd : Nat)
    (compressed : Bool) : RelinearizationKey :=
  { evk := { gc := NewGadgetCiphertext p (if compressed then 0 else 1) levelQ levelP btd
             Seed := none } }

/-- `RelinearizationKey.IsCompressed`: promoted from the embedded
`EvaluationKey` (Go struct embedding). -/
def RelinearizationKey.IsCompressed (rlk : RelinearizationKey) : Bool :=
  rlk.evk.IsCompressed

/-- Modelled from the spec: relinearization-key generation (outside the
excerpt) stores the seed on a compressed key, as for `genEvaluationKey`. -/
def genRelinearizationKey (p : Parameters) (levelQ levelP : Int) (btd : Nat)
    (compressed : Bool) (seed : List Nat) : RelinearizationKey :=
  { evk := genEvaluationKey p levelQ levelP btd compressed seed }

/-- `rlwe.GaloisKey` (part_003 lines 577-581): Galois-element tag, NthRoot tag
and an embedded `EvaluationKey`. -/
structure GaloisKey where
  GaloisElement : Nat
  NthRoot : Nat
  evk : EvaluationKey
  deriving DecidableEq, Repr

/-- `newGaloisKey` (part_003 lines 590-601): degree 1, or 0 when compressed;
`GaloisElement` zero, `NthRoot` taken from the ring parameters, `Seed` left
nil by the allocator. -/
def newGaloisKey (p : Parameters) (levelQ levelP : Int) (btd : Nat)
    (compressed : Bool) : GaloisKey :=
  { GaloisElement := 0
    NthRoot := p.nthRoot
    evk := { gc := NewGadgetCiphertext p (if compressed then 0 else 1) levelQ levelP btd
             Seed := none } }

/-- `GaloisKey.IsCompressed`: promoted from the embedded `EvaluationKey`. -/
def GaloisKey.IsCompressed (gk : GaloisKey) : Bool :=
  gk.evk.IsCompressed

/-- Modelled from the spec: Galois-key generation (outside the excerpt) tags
the key with the Galois element and stores the seed on a compressed key. -/
def genGaloisKey (p : Parameters) (levelQ levelP : Int) (btd : Nat)
    (compressed : Bool) (seed : List Nat) (galEl : Nat) : GaloisKey :=
  { GaloisElement := galEl
    NthRoot := p.nthRoot
    evk := genEvaluationKey p levelQ levelP btd compressed seed }

end Lattigo

namespace Lattigo

lemma newVectorQP_length (N size : Nat) (lq lp : Int) :
    (newVectorQP N size lq lp).length = size := by
  simp [newVectorQP, VectorQP]

lemma NewGadgetCiphertext_Degree (p : Parameters) (degree : Nat)
    (lq lp : Int) (btd : Nat) (hr : 1 ≤ p.drns) (hc : 1 ≤ p.dpw2 0) :
    (NewGadgetCiphertext p degree lq lp btd).Degree = degree := by
  obtain ⟨r, hrr⟩ : ∃ r, p.drns = r + 1 := ⟨p.drns - 1, by omega⟩
  obtain ⟨c, hcc⟩ : ∃ c, p.dpw2 0 = c + 1 := ⟨p.dpw2 0 - 1, by omega⟩
  simp only [NewGadgetCiphertext, hrr, List.range_succ_eq_map, List.map_cons, hcc]
  unfold GadgetCiphertext.Degree
  simp only [newVectorQP]
  cases h : List.replicate (degree + 1) (newPolyQP p.N lq lp) with
  | nil => simp at h
  | cons x xs =>
      have : (x :: xs).length = degree + 1 := by rw [← h]; simp
      simp only [VectorQP] at *
      simp only [this]
      omega

lemma genEvaluationKey_gc (p : Parameters) (lq lp : Int) (btd : Nat)
    (c : Bool) (s : List Nat) :
    (genEvaluationKey p lq lp btd c s).gc
      = NewGadgetCiphertext p (if c then 0 else 1) lq lp btd := by
  cases c <;> rfl

lemma genEvaluationKey_degree (p : Parameters) (lq lp : Int) (btd : Nat)
    (c : Bool) (s : List Nat) (hr : 1 ≤ p.drns) (hc : 1 ≤ p.dpw2 0) :
    (genEvaluationKey p lq lp btd c s).Degree = if c then 0 else 1 := by
  have h := NewGadgetCiphertext_Degree p (if c then 0 else 1) lq lp btd hr hc
  rw [EvaluationKey.Degree, genEvaluationKey_gc, h]
  cases c <;> simp

lemma genEvaluationKey_seed (p : Parameters) (lq lp : Int) (btd : Nat)
    (c : Bool) (s : List Nat) :
    (genEvaluationKey p lq lp btd c s).Seed = if c then some s else none := by
  cases c <;> rfl

/-- C1: every evaluation / relinearization / Galois key constructed with
`Compressed=true` has `IsCompressed() = true` and a present 32-byte seed;
every key constructed with `Compressed=false` has `IsCompressed() = false`
and an absent seed; and `IsCompressed()` is equivalent to `Degree() == 0`. -/
theorem C1_compressed_key_seed_invariant (p : Parameters) (lq lp : Int)
    (btd : Nat) (seed : List Nat) (galEl : Nat)
    (hr : 1 ≤ p.drns) (hc : 1 ≤ p.dpw2 0) (hs : seed.length = 32) :
    ((genEvaluationKey p lq lp btd true seed).IsCompressed = true
      ∧ (genEvaluationKey p lq lp btd true seed).Seed = some seed
      ∧ seed.length = 32)
    ∧ ((genEvaluationKey p lq lp btd false seed).IsCompressed = false
      ∧ (genEvaluationKey p lq lp btd false seed).Seed = none)
    ∧ ((genRelinearizationKey p lq lp btd true seed).IsCompressed = true
      ∧ (genRelinearizationKey p lq lp btd true seed).evk.Seed = some seed)
    ∧ ((genRelinearizationKey p lq lp btd false seed).IsCompressed = false
      ∧ (genRelinearizationKey p lq lp btd false seed).evk.Seed = none)
    ∧ ((genGaloisKey p lq lp btd true seed galEl).IsCompressed = true
      ∧ (genGaloisKey p lq lp btd true seed galEl).evk.Seed = some seed)
    ∧ ((genGaloisKey p lq lp btd false seed galEl).IsCompressed = false
      ∧ (genGaloisKey p lq lp btd false seed galEl).evk.Seed = none)
    ∧ (∀ evk : EvaluationKey, evk.IsCompressed = true ↔ evk.Degree = 0) := by
  have hdt := genEvaluationKey_degree p lq lp btd true seed hr hc
  have hdf := genEvaluationKey_degree p lq lp btd false seed hr hc
  simp only [if_pos rfl] at hdt
  simp only [if_neg (by decide : ¬ (false = true))] at hdf
  refine ⟨⟨?_, genEvaluationKey_seed p lq lp btd true seed, hs⟩,
          ⟨?_, genEvaluationKey_seed p lq lp btd false seed⟩,
          ⟨?_, genEvaluationKey_seed p lq lp btd true seed⟩,
          ⟨?_, genEvaluationKey_seed p lq lp btd false seed⟩,
          ⟨?_, genEvaluationKey_seed p lq lp btd true seed⟩,
          ⟨?_, genEvaluationKey_seed p lq lp btd false seed⟩,
          fun evk => by simp [EvaluationKey.IsCompressed]⟩ <;>
    simp [EvaluationKey.IsCompressed, RelinearizationKey.IsCompressed,
      GaloisKey.IsCompressed, genRelinearizationKey, genGaloisKey, hdt, hdf]

/-- Concrete parameter object used by the witnesses: ring degree 1, one RNS
digit, one base-2 digit per row, no P modulus. -/
def witParams : Parameters :=
  { N := 1, maxLevelQ := 0, maxLevelP := -1, drns := 1, dpw2 := fun _ => 1
    prngA := fun _ _ _ => ⟨⟨[[0]]⟩, ⟨[]⟩⟩, nthRoot := 4 }

theorem C1_compressed_key_seed_invariant_witness :
    (genEvaluationKey witParams 0 (-1) 0 true (List.replicate 32 0)).IsCompressed = true
    ∧ (genEvaluationKey witParams 0 (-1) 0 false (List.replicate 32 0)).Seed = none :=
  ⟨(C1_compressed_key_seed_invariant witParams 0 (-1) 0 (List.replicate 32 0) 5
      (by decide) (by decide) (by decide)).1.1,
   (C1_compressed_key_seed_invariant witParams 0 (-1) 0 (List.replicate 32 0) 5
      (by decide) (by decide) (by decide)).2.1.2⟩

/-- The errors of `EvaluationKey.Expand` (part_003 lines 359-422), one
constructor per distinct error site; arguments mirror the format arguments of
the corresponding `fmt.Errorf` call, in source order. -/
inductive ExpandError where
  | notCompressed
  | seedMissing
  | bufferDegree (have' : Int)
  | bufferBaseRNS (have' want : Nat)
  | bufferBaseTwo (have' want : List Nat)
  | bufferLevelQ (want have' : Int)
  | bufferLevelP (want have' : Int)
  deriving DecidableEq, Repr

/-- `Except.isOk` written out, so witnesses can state success without an
existential. -/
def exceptIsOk {ε α : Type} : Except ε α → Bool
  | .ok _ => true
  | .error _ => false

/-- `EvaluationKey.Expand` (part_003 lines 359-422): requires a compressed key
with a present seed, checks a caller-supplied buffer field by field, then
re-draws the public randomness `a` from the keyed PRNG in row-major order,
producing the degree-1 table `(-a*sk + w*P*s' + e, a)`. The in-place update
of `evk.Value` is modelled by returning the new table. -/
def EvaluationKey.Expand (p : Parameters) (evk : EvaluationKey)
    (buffer : Option GadgetCiphertext) :
    Except ExpandError (List (List VectorQP)) :=
  if evk.IsCompressed = false then .error .notCompressed
  else
    match evk.Seed with
    | none => .error .seedMissing
    | some seed =>
      let levelQ := evk.gc.LevelQ
      let levelP := evk.gc.LevelP
      let brns := evk.gc.BaseRNSDecompositionVectorSize
      let btwo := evk.gc.BaseTwoDecompositionVectorSize
      let checked : Except ExpandError GadgetCiphertext :=
        match buffer with
        | some b =>
          if b.Degree = 0 then
            if b.BaseRNSDecompositionVectorSize = brns then
              if b.BaseTwoDecompositionVectorSize = btwo then
                if b.LevelQ = levelQ then
                  if b.LevelP = levelP then .ok b
                  else .error (.bufferLevelP levelP b.LevelP)
                else .error (.bufferLevelQ levelQ b.LevelQ)
              else .error (.bufferBaseTwo b.BaseTwoDecompositionVectorSize btwo)
            else .error (.bufferBaseRNS b.BaseRNSDecompositionVectorSize brns)
          else .error (.bufferDegree b.Degree)
        | none => .ok (NewGadgetCiphertext p 0 levelQ levelP evk.gc.BaseTwoDecomposition)
      match checked with
      | .error e => .error e
      | .ok _ =>
        .ok (evk.gc.Value.enum.map fun ir =>
          ir.2.enum.map fun jc =>
            ([jc.2.getD 0 (newPolyQP p.N levelQ levelP),
              p.prngA seed ir.1 jc.1] : VectorQP))

/-- C2: `Expand` reports "not compressed" whenever `IsCompressed()` is false,
"seed missing" whenever the key is compressed but the seed is nil, a distinct
per-field error for each buffer mismatch (degree, then
BaseRNSDecompositionVectorSize, then BaseTwoDecompositionVectorSize, then
levelQ, then levelP, checked in that order), and succeeds on a compressed
seeded key with a matching or absent buffer. -/
theorem C2_expand_error_contract (p : Parameters) (evk : EvaluationKey)
    (buf : Option GadgetCiphertext) (b : GadgetCiphertext) (s : List Nat) :
    (evk.IsCompressed = false → evk.Expand p buf = .error .notCompressed)
    ∧ (evk.IsCompressed = true → evk.Seed = none →
        evk.Expand p buf = .error .seedMissing)
    ∧ (evk.IsCompressed = true → evk.Seed = some s →
        (exceptIsOk (evk.Expand p none) = true)
        ∧ (b.Degree ≠ 0 →
            evk.Expand p (some b) = .error (.bufferDegree b.Degree))
        ∧ (b.Degree = 0 →
            b.BaseRNSDecompositionVectorSize ≠ evk.gc.BaseRNSDecompositionVectorSize →
            evk.Expand p (some b) = .error (.bufferBaseRNS
              b.BaseRNSDecompositionVectorSize evk.gc.BaseRNSDecompositionVectorSize))
        ∧ (b.Degree = 0 →
            b.BaseRNSDecompositionVectorSize = evk.gc.BaseRNSDecompositionVectorSize →
            b.BaseTwoDecompositionVectorSize ≠ evk.gc.BaseTwoDecompositionVectorSize →
            evk.Expand p (some b) = .error (.bufferBaseTwo
              b.BaseTwoDecompositionVectorSize evk.gc.BaseTwoDecompositionVectorSize))
        ∧ (b.Degree = 0 →
            b.BaseRNSDecompositionVectorSize = evk.gc.BaseRNSDecompositionVectorSize →
            b.BaseTwoDecompositionVectorSize = evk.gc.BaseTwoDecompositionVectorSize →
            b.LevelQ ≠ evk.gc.LevelQ →
            evk.Expand p (some b) = .error (.bufferLevelQ evk.gc.LevelQ b.LevelQ))
        ∧ (b.Degree = 0 →
            b.BaseRNSDecompositionVectorSize = evk.gc.BaseRNSDecompositionVectorSize →
            b.BaseTwoDecompositionVectorSize = evk.gc.BaseTwoDecompositionVectorSize →
            b.LevelQ = evk.gc.LevelQ →
            b.LevelP ≠ evk.gc.LevelP →
            evk.Expand p (some b) = .error (.bufferLevelP evk.gc.LevelP b.LevelP))
        ∧ (b.Degree = 0 →
            b.BaseRNSDecompositionVectorSize = evk.gc.BaseRNSDecompositionVectorSize →
            b.BaseTwoDecompositionVectorSize = evk.gc.BaseTwoDecompositionVectorSize →
            b.LevelQ = evk.gc.LevelQ →
            b.LevelP = evk.gc.LevelP →
            exceptIsOk (evk.Expand p (some b)) = true)) := by
  refine ⟨fun h1 => by simp [EvaluationKey.Expand, h1], fun h1 h2 => ?_, fun h1 h2 => ?_⟩
  · simp [EvaluationKey.Expand, h1, h2]
  · refine ⟨by simp [EvaluationKey.Expand, h1, h2, exceptIsOk],
      fun hd => by simp [EvaluationKey.Expand, h1, h2, hd],
      fun hd hr => by simp [EvaluationKey.Expand, h1, h2, hd, hr],
      fun hd hr ht => by simp [EvaluationKey.Expand, h1, h2, hd, hr, ht],
      fun hd hr ht hq => by simp [EvaluationKey.Expand, h1, h2, hd, hr, ht, hq],
      fun hd hr ht hq hp => by simp [EvaluationKey.Expand, h1, h2, hd, hr, ht, hq, hp],
      fun hd hr ht hq hp => by
        simp [EvaluationKey.Expand, h1, h2, hd, hr, ht, hq, hp, exceptIsOk]⟩

theorem C2_expand_error_contract_witness :
    exceptIsOk ((genEvaluationKey witParams 0 (-1) 0 true (List.replicate 32 0)).Expand
      witParams none) = true
    ∧ (genEvaluationKey witParams 0 (-1) 0 false (List.replicate 32 0)).Expand
      witParams none = .error .notCompressed :=
  ⟨((C2_expand_error_contract witParams
      (genEvaluationKey witParams 0 (-1) 0 true (List.replicate 32 0)) none
      (NewGadgetCiphertext witParams 0 0 (-1) 0)
      (List.replicate 32 0)).2.2 (by decide) (by decide)).1,
   (C2_expand_error_contract witParams
      (genEvaluationKey witParams 0 (-1) 0 false (List.replicate 32 0)) none
      (NewGadgetCiphertext witParams 0 0 (-1) 0)
      (List.replicate 32 0)).1 (by decide)⟩

/-- Lookup errors of `MemEvaluationKeySet` (part_003 lines 749-785):
`"GaloisKey[%d] is nil"` names the requested element;
`"RelinearizationKey is nil"` reports the empty slot. -/
inductive KeySetError where
  | galoisKeyMissing (galEl : Nat)
  | relinKeyMissing
  deriving DecidableEq, Repr

/-- `rlwe.MemEvaluationKeySet` (part_003 lines 734-737): an optional
relinearization key and a Go map `uint64 → *GaloisKey`, modelled as an
association list where insertion overwrites the binding for its key. -/
structure MemEvaluationKeySet where
  relinearizationKey : Option RelinearizationKey
  galoisKeys : List (Nat × GaloisKey)
  deriving DecidableEq, Repr

/-- Go map assignment `m[k] = v`: the new binding replaces any previous
binding for `k`. -/
def mapInsert (m : List (Nat × GaloisKey)) (k : Nat) (v : GaloisKey) :
    List (Nat × GaloisKey) :=
  (k, v) :: m.filter fun kv => kv.1 ≠ k

/-- `rlwe.NewMemEvaluationKeySet` (part_003 lines 740-747): stores the
relinearization key and inserts each Galois key under its `GaloisElement`,
in argument order. -/
def NewMemEvaluationKeySet (relinKey : Option RelinearizationKey)
    (gks : List GaloisKey) : MemEvaluationKeySet :=
  { relinearizationKey := relinKey
    galoisKeys := gks.foldl (fun m k => mapInsert m k.GaloisElement k) [] }

/-- `MemEvaluationKeySet.GetGaloisKey` (part_003 lines 750-757). -/
def MemEvaluationKeySet.GetGaloisKey (eks : MemEvaluationKeySet) (galEl : Nat) :
    Except KeySetError GaloisKey :=
  match eks.galoisKeys.lookup galEl with
  | some gk => .ok gk
  | none => .error (.galoisKeyMissing galEl)

/-- `MemEvaluationKeySet.GetRelinearizationKey` (part_003 lines 779-785). -/
def MemEvaluationKeySet.GetRelinearizationKey (eks : MemEvaluationKeySet) :
    Except KeySetError RelinearizationKey :=
  match eks.relinearizationKey with
  | some rk => .ok rk
  | none => .error .relinKeyMissing

lemma lookup_filter_ne (m : List (Nat × GaloisKey)) (a g : Nat) (h : g ≠ a) :
    (m.filter fun kv => kv.1 ≠ a).lookup g = m.lookup g := by
  induction m with
  | nil => rfl
  | cons x xs ih =>
      obtain ⟨b, v⟩ := x
      by_cases hb : b = a
      · subst hb
        have hgb : (g == b) = false := by simp [h]
        simp only [ne_eq, decide_not] at ih
        simp [List.filter_cons, List.lookup, hgb, ih]
      · by_cases hg : g = b
        · subst hg
          simp [List.filter_cons, List.lookup, hb]
        · have hgb : (g == b) = false := by simp [hg]
          simp only [ne_eq, decide_not] at ih
          simp [List.filter_cons, List.lookup, hgb, hb, ih]

lemma lookup_foldl_insert_ne (gks : List GaloisKey) (g : Nat)
    (h : ∀ k ∈ gks, k.GaloisElement ≠ g) (m : List (Nat × GaloisKey)) :
    (gks.foldl (fun m k => mapInsert m k.GaloisElement k) m).lookup g
      = m.lookup g := by
  induction gks generalizing m with
  | nil => rfl
  | cons x xs ih =>
      have hx : g ≠ x.GaloisElement := fun hh => h x (by simp) hh.symm
      have hgb : (g == x.GaloisElement) = false := by simp [hx]
      rw [List.foldl_cons, ih (fun k hk => h k (by simp [hk]))]
      simp only [mapInsert, List.lookup, hgb]
      simpa using lookup_filter_ne m x.GaloisElement g hx

lemma lookup_foldl_insert_mem (gks : List GaloisKey) (k : GaloisKey)
    (hk : k ∈ gks)
    (hdist : gks.Pairwise fun a b => a.GaloisElement ≠ b.GaloisElement)
    (m : List (Nat × GaloisKey)) :
    (gks.foldl (fun m k => mapInsert m k.GaloisElement k) m).lookup
      k.GaloisElement = some k := by
  induction gks generalizing m with
  | nil => cases hk
  | cons x xs ih =>
      rw [List.foldl_cons]
      rcases List.mem_cons.1 hk with rfl | hmem
      · have hne : ∀ a ∈ xs, a.GaloisElement ≠ k.GaloisElement := by
          intro a ha hh
          exact ((List.pairwise_cons.1 hdist).1 a ha) hh.symm
        rw [lookup_foldl_insert_ne xs k.GaloisElement hne]
        simp [mapInsert, List.lookup]
      · exact ih hmem (List.pairwise_cons.1 hdist).2 _

/-- C4: `GetGaloisKey` on a never-inserted element fails with an error naming
that element and on an inserted element (elements pairwise distinct) returns
exactly the inserted key; `GetRelinearizationKey` fails when the slot is
empty and returns the stored key otherwise. -/
theorem C4_keyset_lookup_contract (relin : RelinearizationKey)
    (gks : List GaloisKey) (k : GaloisKey) (g : Nat)
    (hg : ∀ k' ∈ gks, k'.GaloisElement ≠ g)
    (hk : k ∈ gks)
    (hdist : gks.Pairwise fun a b => a.GaloisElement ≠ b.GaloisElement) :
    ((NewMemEvaluationKeySet (some relin) gks).GetGaloisKey g
      = .error (.galoisKeyMissing g))
    ∧ ((NewMemEvaluationKeySet (some relin) gks).GetGaloisKey k.GaloisElement
      = .ok k)
    ∧ ((NewMemEvaluationKeySet none gks).GetRelinearizationKey
      = .error .relinKeyMissing)
    ∧ ((NewMemEvaluationKeySet (some relin) gks).GetRelinearizationKey
      = .ok relin) := by
  refine ⟨?_, ?_, rfl, rfl⟩
  · unfold MemEvaluationKeySet.GetGaloisKey NewMemEvaluationKeySet
    rw [lookup_foldl_insert_ne gks g hg []]
    rfl
  · unfold MemEvaluationKeySet.GetGaloisKey NewMemEvaluationKeySet
    rw [lookup_foldl_insert_mem gks k hk hdist []]

/-- A concrete Galois key used by the C4 witness. -/
def witGaloisKey : GaloisKey :=
  genGaloisKey witParams 0 (-1) 0 true (List.replicate 32 0) 5

theorem C4_keyset_lookup_contract_witness :
    ((NewMemEvaluationKeySet
        (some (genRelinearizationKey witParams 0 (-1) 0 true (List.replicate 32 0)))
        [witGaloisKey]).GetGaloisKey 3
      = .error (.galoisKeyMissing 3))
    ∧ ((NewMemEvaluationKeySet
        (some (genRelinearizationKey witParams 0 (-1) 0 true (List.replicate 32 0)))
        [witGaloisKey]).GetGaloisKey witGaloisKey.GaloisElement
      = .ok witGaloisKey) :=
  ⟨(C4_keyset_lookup_contract
      (genRelinearizationKey witParams 0 (-1) 0 true (List.replicate 32 0))
      [witGaloisKey] witGaloisKey 3
      (by decide) (by simp) (by simp)).1,
   (C4_keyset_lookup_contract
      (genRelinearizationKey witParams 0 (-1) 0 true (List.replicate 32 0))
      [witGaloisKey] witGaloisKey 3
      (by decide) (by simp) (by simp)).2.1⟩

instance : Inhabited Poly := ⟨⟨[]⟩⟩

instance : Inhabited PolyQP := ⟨⟨⟨[]⟩, ⟨[]⟩⟩⟩

/-- `ringqp.PolyVector` (modelled from the spec: the element type of
`PolyMatrix`, a vector of QP ring elements whose level accessors read the
first element, like `VectorQP` in part_003). -/
abbrev PolyVector := List PolyQP

/-- `PolyVector.LevelQ` (modelled from the spec, as for `VectorQP.LevelQ`):
the Q-level of the first polynomial of the vector. -/
def PolyVector.levelQ (v : PolyVector) : Int := (v.headI).levelQ

/-- `PolyVector.LevelP` (modelled from the spec, as for `VectorQP.LevelP`):
the P-level of the first polynomial of the vector. -/
def PolyVector.levelP (v : PolyVector) : Int := (v.headI).levelP

/-- `ringqp.PolyMatrix` (part_000 line 13): a vector of `PolyVector`. -/
abbrev PolyMatrix := List PolyVector

/-- `PolyMatrix.LevelQ` (part_000 lines 57-59): the source returns
`(*pm)[0].LevelP()` — the P-level of the first row. -/
def PolyMatrix.levelQ (pm : PolyMatrix) : Int := (pm.headI).levelP

/-- `PolyMatrix.LevelP` (part_000 lines 62-64): `(*pm)[0].LevelP()`. -/
def PolyMatrix.levelP (pm : PolyMatrix) : Int := (pm.headI).levelP

/-- Replace the Q-component of every polynomial of the matrix, leaving every
P-component unchanged (used to state that `LevelQ` ignores Q-components). -/
def PolyMatrix.mapQ (f : Poly → Poly) (pm : PolyMatrix) : PolyMatrix :=
  pm.map fun row => (row : List PolyQP).map fun pq => ⟨f pq.Q, pq.P⟩

/-- C9: on a non-empty `PolyMatrix`, `LevelQ()` and `LevelP()` return the same
value, the P-level of the first polynomial of the matrix, and `LevelQ()` is
unchanged by arbitrary modification of every Q-component. -/
theorem C9_polymatrix_levelQ_equals_levelP (pm : PolyMatrix)
    (hm : pm ≠ []) (hv : pm.headI ≠ ([] : List PolyQP)) :
    PolyMatrix.levelQ pm = PolyMatrix.levelP pm
    ∧ PolyMatrix.levelQ pm = ((pm.headI : List PolyQP).headI).P.level
    ∧ ∀ f : Poly → Poly, PolyMatrix.levelQ (PolyMatrix.mapQ f pm) = PolyMatrix.levelQ pm := by
  refine ⟨rfl, rfl, fun f => ?_⟩
  cases pm with
  | nil => exact absurd rfl hm
  | cons row rest =>
      cases row with
      | nil => exact absurd rfl hv
      | cons x xs => rfl

theorem C9_polymatrix_levelQ_equals_levelP_witness :
    PolyMatrix.levelQ ([[⟨⟨[[7]]⟩, ⟨[]⟩⟩]] : List (List PolyQP))
      = PolyMatrix.levelP ([[⟨⟨[[7]]⟩, ⟨[]⟩⟩]] : List (List PolyQP)) :=
  (C9_polymatrix_levelQ_equals_levelP ([[⟨⟨[[7]]⟩, ⟨[]⟩⟩]] : List (List PolyQP))
    (by simp) (by simp [List.headI])).1

/-- `EvaluationKey.CopyNew` (part_003 lines 534-536): copies the
`GadgetCiphertext` but not the `Seed` field, which is left at its zero value
(nil). -/
def EvaluationKey.CopyNew (evk : EvaluationKey) : EvaluationKey :=
  { gc := evk.gc, Seed := none }

/-- C10: `CopyNew` deep-copies the `GadgetCiphertext` but leaves `Seed` nil,
so `Expand` on the copy of a compressed key fails with the "seed is missing"
error. -/
theorem C10_copyNew_drops_seed (p : Parameters) (evk : EvaluationKey)
    (buf : Option GadgetCiphertext) (h : evk.IsCompressed = true) :
    evk.CopyNew.gc = evk.gc
    ∧ evk.CopyNew.Seed = none
    ∧ evk.CopyNew.Expand p buf = .error .seedMissing := by
  have hc : evk.CopyNew.IsCompressed = true := h
  have hs : evk.CopyNew.Seed = none := rfl
  refine ⟨rfl, rfl, ?_⟩
  simp [EvaluationKey.Expand, hc, hs]

theorem C10_copyNew_drops_seed_witness :
    (genEvaluationKey witParams 0 (-1) 0 true (List.replicate 32 0)).CopyNew.Expand
      witParams none = .error .seedMissing :=
  (C10_copyNew_drops_seed witParams
    (genEvaluationKey witParams 0 (-1) 0 true (List.replicate 32 0)) none
    (by decide)).2.2

/-- `SimpleBootstrapper.BootstrapMany` (part_002 lines 47-52): iterates
`Bootstrap` over the slice, discarding each per-element error
(`cts[i], _ = d.Bootstrap(cts[i])` — on failure `Bootstrap` returns
`(nil, err)`, so the slot becomes nil) and returns a nil error. The
per-element `Bootstrap` outcome is the parameter `bootstrap`. -/
def SimpleBootstrapper.BootstrapMany {ct ε : Type} (bootstrap : ct → Except ε ct)
    (cts : List ct) : List (Option ct) × Option ε :=
  (cts.map fun c =>
    match bootstrap c with
    | .ok c' => some c'
    | .error _ => none,
   none)

/-- C8 counterexample: a one-element slice whose `Bootstrap` fails, yet
`BootstrapMany` returns a nil error. -/
theorem C8_bootstrapMany_counterexample :
    exceptIsOk ((fun _ : Nat => (Except.error 0 : Except Nat Nat)) 0) = false
    ∧ (SimpleBootstrapper.BootstrapMany
        (fun _ : Nat => (Except.error 0 : Except Nat Nat)) [0]).2 = none :=
  ⟨rfl, rfl⟩

/-- C8 (amended): `BootstrapMany` always returns a nil error, discarding any
error produced by `Bootstrap`; an element on which `Bootstrap` fails is
replaced by nil in the returned slice. -/
theorem C8_bootstrapMany_swallows_errors {ct ε : Type}
    (bootstrap : ct → Except ε ct) (cts : List ct) (i : Nat) (c : ct) (e : ε)
    (hc : cts[i]? = some c) (he : bootstrap c = .error e) :
    (SimpleBootstrapper.BootstrapMany bootstrap cts).2 = none
    ∧ (SimpleBootstrapper.BootstrapMany bootstrap cts).1[i]? = some none := by
  refine ⟨rfl, ?_⟩
  simp [SimpleBootstrapper.BootstrapMany, List.getElem?_map, hc, he]

theorem C8_bootstrapMany_swallows_errors_witness :
    (SimpleBootstrapper.BootstrapMany
      (fun _ : Nat => (Except.error 7 : Except Nat Nat)) [3]).2 = none
    ∧ (SimpleBootstrapper.BootstrapMany
      (fun _ : Nat => (Except.error 7 : Except Nat Nat)) [3]).1[0]? = some none :=
  C8_bootstrapMany_swallows_errors (fun _ : Nat => (Except.error 7 : Except Nat Nat))
    [3] 0 3 7 rfl rfl

end Lattigo

namespace Lattigo

/-- Coefficient-wise modular addition of two limbs under one modulus:
`Ring.Add` on a single RNS limb (the ring engine is an external collaborator;
modelled from the spec: "pure ring addition", i.e. coefficient-wise addition
modulo the limb modulus). -/
def addLimb (q : Nat) (x y : List Nat) : List Nat :=
  List.zipWith (fun a b => (a + b) % q) x y

/-- `Ring.Add` over a full RNS coefficient matrix, limb by limb, one modulus
per limb. -/
def addLimbs : List Nat → List (List Nat) → List (List Nat) → List (List Nat)
  | q :: qs, x :: xs, y :: ys => addLimb q x y :: addLimbs qs xs ys
  | _, _, _ => []

/-- `Ring.Add` on `ring.Poly`. -/
def ringAdd (mods : List Nat) (a b : Poly) : Poly :=
  ⟨addLimbs mods a.coeffs b.coeffs⟩

/-- `RingQP.Add` (modelled from the spec: adds the Q-parts under the Q moduli
and the P-parts under the P moduli). -/
def ringQPAdd (qmods pmods : List Nat) (a b : PolyQP) : PolyQP :=
  ⟨ringAdd qmods a.Q b.Q, ringAdd pmods a.P b.P⟩

/-- `drlwe.CKGShare` (part_001 lines 31-33): a single QP ring element. -/
structure CKGShare where
  Value : PolyQP
  deriving DecidableEq, Repr

/-- `CKGProtocol.AggregateShares` (part_001 lines 138-140):
`shareOut = share1 + share2` by `RingQP.Add`. -/
def CKGProtocol.AggregateShares (qmods pmods : List Nat) (s1 s2 : CKGShare) :
    CKGShare :=
  ⟨ringQPAdd qmods pmods s1.Value s2.Value⟩

/-- `dbfv.RefreshShare` (declared outside the excerpt; its two fields are
used in dbfv/public_permute.go): a decrypt share and a recrypt share, both
Q-chain polynomials. -/
structure RefreshShare where
  RefreshShareDecrypt : Poly
  RefreshShareRecrypt : Poly
  deriving DecidableEq, Repr

/-- `PermuteProtocol.Aggregate` (dbfv/public_permute.go lines 150-153): sums
the decrypt components and the recrypt components independently with
`contextQ.Add`. -/
def PermuteProtocol.Aggregate (qmods : List Nat) (s1 s2 : RefreshShare) :
    RefreshShare :=
  ⟨ringAdd qmods s1.RefreshShareDecrypt s2.RefreshShareDecrypt,
   ringAdd qmods s1.RefreshShareRecrypt s2.RefreshShareRecrypt⟩

lemma addMod_assoc (q a b c : Nat) :
    ((a + b) % q + c) % q = (a + (b + c) % q) % q := by
  rw [Nat.mod_add_mod, Nat.add_mod_mod, Nat.add_assoc]

lemma addLimb_assoc (q : Nat) (x y z : List Nat) :
    addLimb q (addLimb q x y) z = addLimb q x (addLimb q y z) := by
  induction x generalizing y z with
  | nil => rfl
  | cons a xs ih =>
      cases y with
      | nil => rfl
      | cons b ys =>
          cases z with
          | nil => rfl
          | cons c zs =>
              have h2 := ih ys zs
              simp only [addLimb] at h2
              simp only [addLimb, List.zipWith_cons_cons]
              rw [addMod_assoc, h2]

lemma addLimb_comm (q : Nat) (x y : List Nat) :
    addLimb q x y = addLimb q y x := by
  induction x generalizing y with
  | nil => cases y <;> rfl
  | cons a xs ih =>
      cases y with
      | nil => rfl
      | cons b ys =>
          have h2 := ih ys
          simp only [addLimb] at h2
          simp only [addLimb, List.zipWith_cons_cons]
          rw [Nat.add_comm a b, h2]

lemma addLimbs_assoc (qs : List Nat) (xs ys zs : List (List Nat)) :
    addLimbs qs (addLimbs qs xs ys) zs = addLimbs qs xs (addLimbs qs ys zs) := by
  induction qs generalizing xs ys zs with
  | nil => rfl
  | cons q qs ih =>
      cases xs with
      | nil => cases ys <;> cases zs <;> rfl
      | cons x xs =>
          cases ys with
          | nil => cases zs <;> rfl
          | cons y ys =>
              cases zs with
              | nil => rfl
              | cons z zs => simp [addLimbs, addLimb_assoc, ih]

lemma addLimbs_comm (qs : List Nat) (xs ys : List (List Nat)) :
    addLimbs qs xs ys = addLimbs qs ys xs := by
  induction qs generalizing xs ys with
  | nil => rfl
  | cons q qs ih =>
      cases xs with
      | nil => cases ys <;> rfl
      | cons x xs =>
          cases ys with
          | nil => rfl
          | cons y ys => simp [addLimbs, addLimb_comm, ih]

/-- C5: share aggregation is associative and commutative — for CKG shares
(`CKGProtocol.AggregateShares`, coordinate-wise modular addition over Q and P)
and for refresh shares (`PermuteProtocol.Aggregate`, which sums the decrypt
and recrypt components independently). -/
theorem C5_aggregation_assoc_comm (qmods pmods : List Nat)
    (a b c : CKGShare) (x y z : RefreshShare) :
    CKGProtocol.AggregateShares qmods pmods
        (CKGProtocol.AggregateShares qmods pmods a b) c
      = CKGProtocol.AggregateShares qmods pmods a
        (CKGProtocol.AggregateShares qmods pmods b c)
    ∧ CKGProtocol.AggregateShares qmods pmods a b
      = CKGProtocol.AggregateShares qmods pmods b a
    ∧ PermuteProtocol.Aggregate qmods (PermuteProtocol.Aggregate qmods x y) z
      = PermuteProtocol.Aggregate qmods x (PermuteProtocol.Aggregate qmods y z)
    ∧ PermuteProtocol.Aggregate qmods x y
      = PermuteProtocol.Aggregate qmods y x := by
  refine ⟨?_, ?_, ?_, ?_⟩
  · simp [CKGProtocol.AggregateShares, ringQPAdd, ringAdd, addLimbs_assoc]
  · simp [CKGProtocol.AggregateShares, ringQPAdd, ringAdd]
    exact ⟨addLimbs_comm _ _ _, addLimbs_comm _ _ _⟩
  · simp [PermuteProtocol.Aggregate, ringAdd, addLimbs_assoc]
  · simp [PermuteProtocol.Aggregate, ringAdd]
    exact ⟨addLimbs_comm _ _ _, addLimbs_comm _ _ _⟩

end Lattigo

namespace Lattigo

/-- Coefficient-wise modular subtraction under one modulus: `a − b (mod q)`,
with the subtrahend reduced first so the `Nat` difference cannot underflow. -/
def subMod (q a b : Nat) : Nat := (a + q - b % q) % q

/-- Three-list `zipWith`, truncating to the shortest list. -/
def zipWith3 (f : Nat → Nat → Nat → Nat) : List Nat → List Nat → List Nat → List Nat
  | a :: as, b :: bs, c :: cs => f a b c :: zipWith3 f as bs cs
  | _, _, _ => []

/-- Modelled from the spec §6: the ring engine consumed by the CKG protocol —
transform (NTT), Montgomery conversion, a Montgomery modular product per limb
modulus (`mont q a b`), the small-norm-preserving basis extension onto the
P-chain, and the discrete-Gaussian sampler over the Q-chain (draw-indexed,
σ and 6σ truncation are internal to the sampler). -/
structure RingEngineQP where
  qmods : List Nat
  pmods : List Nat
  ntt : PolyQP → PolyQP
  mform : PolyQP → PolyQP
  mont : Nat → Nat → Nat → Nat
  extendBasis : Poly → Poly
  gauss : Nat → Poly

/-- One limb chain of `MulCoeffsMontgomeryThenSub`: `out -= a ⊗ b` per
coefficient, `⊗` the Montgomery product for that limb's modulus. -/
def mmtsLimbs (mont : Nat → Nat → Nat → Nat) :
    List Nat → List (List Nat) → List (List Nat) → List (List Nat) → List (List Nat)
  | q :: qs, x :: xs, y :: ys, o :: os =>
      zipWith3 (fun a b c => subMod q c (mont q a b)) x y o :: mmtsLimbs mont qs xs ys os
  | _, _, _, _ => []

/-- `RingQP.MulCoeffsMontgomeryThenSub` (modelled from the spec:
Montgomery-domain multiply-then-subtract, Q-limbs then P-limbs). -/
def mulCoeffsMontgomeryThenSub (E : RingEngineQP) (a b out : PolyQP) : PolyQP :=
  ⟨⟨mmtsLimbs E.mont E.qmods a.Q.coeffs b.Q.coeffs out.Q.coeffs⟩,
   ⟨mmtsLimbs E.mont E.pmods a.P.coeffs b.P.coeffs out.P.coeffs⟩⟩

/-- `drlwe.CKGProtocol.GenShare` (part_001 lines 122-135): draw the Gaussian
error over the Q-chain into the share, extend it onto the P-chain when a P
modulus is configured, take the whole element to the NTT domain and Montgomery
form, then `shareOut -= sk ⊗ crp` by `MulCoeffsMontgomeryThenSub`. The
in-place writes to `shareOut.Value` are threaded explicitly; `buf` is the
share's previous contents. -/
def CKGProtocol.GenShare (E : RingEngineQP) (hasP : Bool) (drawIdx : Nat)
    (sk crp : PolyQP) (buf : PolyQP) : PolyQP :=
  let eQ := E.gauss drawIdx
  let s1 : PolyQP := ⟨eQ, if hasP then E.extendBasis eQ else buf.P⟩
  let s2 := E.mform (E.ntt s1)
  mulCoeffsMontgomeryThenSub E sk crp s2

/-- The ring product `sk · crp` in the Montgomery domain, stated from the
spec's formula: per coefficient the Montgomery product reduced into the limb's
ring. -/
def montMulLimbs (mont : Nat → Nat → Nat → Nat) :
    List Nat → List (List Nat) → List (List Nat) → List (List Nat)
  | q :: qs, x :: xs, y :: ys =>
      List.zipWith (fun a b => mont q a b % q) x y :: montMulLimbs mont qs xs ys
  | _, _, _ => []

/-- `sk · crp` over the full QP element (spec-side definition for C6). -/
def montMulQP (E : RingEngineQP) (a b : PolyQP) : PolyQP :=
  ⟨⟨montMulLimbs E.mont E.qmods a.Q.coeffs b.Q.coeffs⟩,
   ⟨montMulLimbs E.mont E.pmods a.P.coeffs b.P.coeffs⟩⟩

/-- Limb-wise ring subtraction driven by the shortest of modulus chain and the
two coefficient matrices (spec-side definition for C6). -/
def subLimbs : List Nat → List (List Nat) → List (List Nat) → List (List Nat)
  | q :: qs, x :: xs, y :: ys => List.zipWith (subMod q) x y :: subLimbs qs xs ys
  | _, _, _ => []

/-- `x − y` over the full QP element (spec-side definition for C6). -/
def subQP (E : RingEngineQP) (x y : PolyQP) : PolyQP :=
  ⟨⟨subLimbs E.qmods x.Q.coeffs y.Q.coeffs⟩,
   ⟨subLimbs E.pmods x.P.coeffs y.P.coeffs⟩⟩

lemma zipWith3_eq_zipWith_zipWith (q : Nat) (mont : Nat → Nat → Nat → Nat)
    (x y o : List Nat) :
    zipWith3 (fun a b c => subMod q c (mont q a b)) x y o
      = List.zipWith (subMod q) o (List.zipWith (fun a b => mont q a b % q) x y) := by
  induction x generalizing y o with
  | nil => cases y <;> cases o <;> rfl
  | cons a as ih =>
      cases y with
      | nil => cases o <;> rfl
      | cons b bs =>
          cases o with
          | nil => rfl
          | cons c cs =>
              have hh : subMod q c (mont q a b) = subMod q c (mont q a b % q) := by
                simp [subMod, Nat.mod_mod_of_dvd]
              simp only [zipWith3, List.zipWith_cons_cons]
              rw [ih bs cs, hh]

lemma mmtsLimbs_eq_sub_montMul (mont : Nat → Nat → Nat → Nat)
    (qs : List Nat) (xs ys os : List (List Nat)) :
    mmtsLimbs mont qs xs ys os = subLimbs qs os (montMulLimbs mont qs xs ys) := by
  induction qs generalizing xs ys os with
  | nil => rfl
  | cons q qs ih =>
      cases xs with
      | nil => cases ys <;> cases os <;> rfl
      | cons x xs =>
          cases ys with
          | nil => cases os <;> rfl
          | cons y ys =>
              cases os with
              | nil => rfl
              | cons o os =>
                  simp [mmtsLimbs, subLimbs, montMulLimbs,
                    zipWith3_eq_zipWith_zipWith, ih]

/-- C6: `GenShare` computes `out = e − sk · crp`, where `e` is the freshly
drawn discrete-Gaussian error (extended onto the P-chain when a P modulus is
configured), taken to the NTT domain and Montgomery form, and the product is
the Montgomery-domain multiply of `sk` and `crp` subtracted limb-wise. -/
theorem C6_ckg_genshare_formula (E : RingEngineQP) (hasP : Bool)
    (drawIdx : Nat) (sk crp buf : PolyQP) :
    CKGProtocol.GenShare E hasP drawIdx sk crp buf
      = subQP E
          (E.mform (E.ntt
            ⟨E.gauss drawIdx,
             if hasP then E.extendBasis (E.gauss drawIdx) else buf.P⟩))
          (montMulQP E sk crp) := by
  unfold CKGProtocol.GenShare subQP montMulQP mulCoeffsMontgomeryThenSub
  simp [mmtsLimbs_eq_sub_montMul]

end Lattigo

namespace Lattigo

/-- A BFV ciphertext `(c0, c1)` as used by dbfv/public_permute.go
(`ciphertext.Value()[0]`, `ciphertext.Value()[1]`). -/
structure BfvCiphertext where
  c0 : Poly
  c1 : Poly
  deriving DecidableEq, Repr

/-- Modelled from the spec §6: the external collaborators consumed by
`PermuteProtocol`'s finalization — the Q-chain moduli (for `contextQ.Add`,
which is concrete modular addition), the `SimpleScaler` rescale Q→T, the
plaintext-modulus NTT and its inverse, the `lift` by ⌊Q/T⌋ back to the
Q-chain, the `ModDownPQ` basis conversion, and the precomputed
generator-stepped permutation index table. -/
structure PermCtx where
  qmods : List Nat
  scale : Poly → Poly
  nttT : Poly → Poly
  invnttT : Poly → Poly
  liftQT : Poly → Poly
  modDownPQ : Nat → Poly → Poly
  indexMatrix : List Nat

/-- `permuteWithIndex` (dbfv/public_permute.go lines 196-200) on the first
coefficient row, as called from `Permute` with `polIn` and `polOut` aliased to
`pp.tmp1` (the `Finalize` call pattern): for ascending `j`,
`row[idx[j]] = row[idx[perm[j]]]`, reading the partially-updated row. -/
def permuteWithIndexInPlace (idxM perm row : List Nat) : List Nat :=
  (List.range row.length).foldl
    (fun r j => r.set (idxM.getD j 0) (r.getD (idxM.getD (perm.getD j 0) 0) 0))
    row

/-- `permuteWithIndex` on a `Poly`: only `Coeffs[0]` is touched by the
source. -/
def permuteWithIndexPoly (idxM perm : List Nat) (pol : Poly) : Poly :=
  match pol.coeffs with
  | [] => pol
  | r :: rest => ⟨permuteWithIndexInPlace idxM perm r :: rest⟩

/-- `PermuteProtocol.Decrypt` (dbfv/public_permute.go lines 156-158):
`sharePlaintext = ciphertext.c0 + shareDecrypt` by `contextQ.Add`. -/
def PermuteProtocol.Decrypt (C : PermCtx) (ct : BfvCiphertext)
    (shareDecrypt : Poly) : Poly :=
  ringAdd C.qmods ct.c0 shareDecrypt

/-- `PermuteProtocol.Permute` (dbfv/public_permute.go lines 161-176): rescale
to the plaintext modulus, forward NTT, permute through the index table,
inverse NTT, lift back by ⌊Q/T⌋.  `sharePlaintext`, `sharePlaintextOut` and
the scratch `pp.tmp1` are one buffer in the `Finalize` call pattern, which is
the aliasing this definition models. -/
def PermuteProtocol.Permute (C : PermCtx) (sharePlaintext : Poly)
    (perm : List Nat) : Poly :=
  let s := C.scale sharePlaintext
  let s := C.nttT s
  let t := permuteWithIndexPoly C.indexMatrix perm s
  let s := C.invnttT t
  C.liftQT s

/-- `PermuteProtocol.Recrypt` (dbfv/public_permute.go lines 179-187):
`ctOut.c0 = sharePlaintext + shareRecrypt`; `ctOut.c1 = crs` mod-down by P at
the level of the output ciphertext's previous second component. -/
def PermuteProtocol.Recrypt (C : PermCtx) (sharePlaintext crs shareRecrypt : Poly)
    (ctOut : BfvCiphertext) : BfvCiphertext :=
  ⟨ringAdd C.qmods sharePlaintext shareRecrypt,
   C.modDownPQ (ctOut.c1.coeffs.length - 1) crs⟩

/-- `PermuteProtocol.Finalize` (dbfv/public_permute.go lines 190-194), with
the source's three calls inlined step by step over the shared `pp.tmp1`
buffer. -/
def PermuteProtocol.Finalize (C : PermCtx) (ct : BfvCiphertext)
    (perm : List Nat) (crs : Poly) (share : RefreshShare)
    (ctOut : BfvCiphertext) : BfvCiphertext :=
  let tmp1 := ringAdd C.qmods ct.c0 share.RefreshShareDecrypt
  let s := C.scale tmp1
  let s := C.nttT s
  let t := permuteWithIndexPoly C.indexMatrix perm s
  let s := C.invnttT t
  let tmp1 := C.liftQT s
  ⟨ringAdd C.qmods tmp1 share.RefreshShareRecrypt,
   C.modDownPQ (ctOut.c1.coeffs.length - 1) crs⟩

/-- C7: `Finalize` produces exactly the ciphertext obtained by running
`Decrypt` (into the intermediate buffer), then `Permute` on that buffer, then
`Recrypt`, in sequence; and `Decrypt` computes `c0 + aggregatedDecryptShare`. -/
theorem C7_finalize_composes_decrypt_permute_recrypt (C : PermCtx)
    (ct : BfvCiphertext) (perm : List Nat) (crs : Poly)
    (share : RefreshShare) (ctOut : BfvCiphertext) :
    PermuteProtocol.Finalize C ct perm crs share ctOut
      = PermuteProtocol.Recrypt C
          (PermuteProtocol.Permute C
            (PermuteProtocol.Decrypt C ct share.RefreshShareDecrypt) perm)
          crs share.RefreshShareRecrypt ctOut
    ∧ PermuteProtocol.Decrypt C ct share.RefreshShareDecrypt
      = ringAdd C.qmods ct.c0 share.RefreshShareDecrypt :=
  ⟨rfl, rfl⟩

end Lattigo

namespace Lattigo

/-- `k` bytes, little-endian, of `n` (mod `2^(8k)`), as written by the
buffered binary writers ("little-endian where numeric"). -/
def natToBytesLE : Nat → Nat → List Nat
  | 0, _ => []
  | k + 1, n => n % 256 :: natToBytesLE k (n / 256)

/-- Value of a little-endian byte list. -/
def bytesToNatLE : List Nat → Nat
  | [] => 0
  | b :: bs => b + 256 * bytesToNatLE bs

lemma natToBytesLE_length (k n : Nat) : (natToBytesLE k n).length = k := by
  induction k generalizing n with
  | zero => rfl
  | succ k ih => simp [natToBytesLE, ih]

lemma bytesToNatLE_natToBytesLE (k n : Nat) :
    bytesToNatLE (natToBytesLE k n) = n % 256 ^ k := by
  induction k generalizing n with
  | zero => simp [natToBytesLE, bytesToNatLE, Nat.mod_one]
  | succ k ih =>
      rw [natToBytesLE, bytesToNatLE, ih, pow_succ, mul_comm (256 ^ k) 256,
        Nat.mod_mul]

/-- Encoding of a `uint64` sequence (8-byte length prefix, then 8 bytes per
element), the wire format of `structs.Vector[uint64]` per spec §6. -/
def encUintVec (v : List Nat) : List Nat :=
  natToBytesLE 8 v.length ++ (v.map (natToBytesLE 8)).join

/-- Wire size of a `uint64` sequence. -/
def uintVecSize (v : List Nat) : Nat := 8 + 8 * v.length

/-- Encoding of a `ring.Poly` (its `structs.Matrix[uint64]` of coefficients:
8-byte limb count, then each limb as a `uint64` sequence). -/
def encPoly (p : Poly) : List Nat :=
  natToBytesLE 8 p.coeffs.length ++ (p.coeffs.map encUintVec).join

/-- `Poly.BinarySize` (ring/poly.go line 98, the matrix size formula per
spec §6: exact, computable without encoding). -/
def polyBinarySize (p : Poly) : Nat :=
  8 + (p.coeffs.map uintVecSize).sum

/-- Encoding of a `ringqp.Poly`: Q-part then P-part (an absent P-part is a
zero-limb matrix). -/
def encPolyQP (pq : PolyQP) : List Nat :=
  encPoly pq.Q ++ encPoly pq.P

def polyQPBinarySize (pq : PolyQP) : Nat :=
  polyBinarySize pq.Q + polyBinarySize pq.P

/-- Encoding of a `VectorQP` (`structs.Vector[ringqp.Poly]`: 8-byte length,
then the elements). -/
def encVectorQP (v : VectorQP) : List Nat :=
  natToBytesLE 8 (List.length v) ++ ((v : List PolyQP).map encPolyQP).join

def vectorQPBinarySize (v : VectorQP) : Nat :=
  8 + ((v : List PolyQP).map polyQPBinarySize).sum

/-- Encoding of one row of the gadget table (`structs.Vector[VectorQP]`). -/
def encRow (row : List VectorQP) : List Nat :=
  natToBytesLE 8 row.length ++ (row.map encVectorQP).join

def rowBinarySize (row : List VectorQP) : Nat :=
  8 + (row.map vectorQPBinarySize).sum

/-- `GadgetCiphertext` wire payload (modelled from the spec §6: the
`BaseTwoDecomposition` scalar, then the jagged matrix with recursive 8-byte
length prefixes). -/
def encGC (gc : GadgetCiphertext) : List Nat :=
  natToBytesLE 8 gc.BaseTwoDecomposition
    ++ natToBytesLE 8 gc.Value.length ++ (gc.Value.map encRow).join

/-- `GadgetCiphertext.BinarySize` (modelled from the spec §6). -/
def gcBinarySize (gc : GadgetCiphertext) : Nat :=
  16 + (gc.Value.map rowBinarySize).sum

/-- `EvaluationKey.BinarySize` (part_003 lines 425-430): the gadget payload
plus `len(*evk.Seed)` = 32 when the seed pointer is non-nil. -/
def EvaluationKey.BinarySize (evk : EvaluationKey) : Nat :=
  match evk.Seed with
  | some _ => gcBinarySize evk.gc + 32
  | none => gcBinarySize evk.gc

/-- `EvaluationKey.WriteTo` (part_003 lines 443-477): the gadget payload,
then — iff the key is compressed — the 32-byte seed, with an error when a
compressed key has a nil seed. -/
def EvaluationKey.WriteTo (evk : EvaluationKey) : Except String (List Nat) :=
  if evk.IsCompressed then
    match evk.Seed with
    | none => .error "writing compressed evaluation key: the seed is nil"
    | some seed => .ok (encGC evk.gc ++ seed)
  else .ok (encGC evk.gc)

lemma join_map_length_sum {α : Type} (f : α → List Nat) (l : List α) :
    ((l.map f).join).length = (l.map fun x => (f x).length).sum := by
  induction l with
  | nil => rfl
  | cons x xs ih => simp [ih]

lemma sum_map_const_nat {α : Type} (l : List α) (c : Nat) :
    (l.map fun _ => c).sum = c * l.length := by
  induction l with
  | nil => simp
  | cons x xs ih => simp [ih, Nat.mul_succ]; ring

lemma map_length_eq {α : Type} (f : α → List Nat) (g : α → Nat)
    (h : ∀ x, (f x).length = g x) (l : List α) :
    l.map (List.length ∘ f) = l.map g := by
  induction l with
  | nil => rfl
  | cons x xs ih => simp [Function.comp, h, ih]

lemma encUintVec_length (v : List Nat) :
    (encUintVec v).length = uintVecSize v := by
  simp only [encUintVec, uintVecSize, List.length_append, natToBytesLE_length,
    join_map_length_sum, List.map_map]
  simp [sum_map_const_nat, Nat.mul_comm]

lemma encPoly_length (p : Poly) :
    (encPoly p).length = polyBinarySize p := by
  simp only [encPoly, polyBinarySize, List.length_append, natToBytesLE_length,
    join_map_length_sum, List.map_map]
  simp [encUintVec_length]

lemma encPolyQP_length (pq : PolyQP) :
    (encPolyQP pq).length = polyQPBinarySize pq := by
  simp [encPolyQP, polyQPBinarySize, encPoly_length]

lemma encVectorQP_length (v : VectorQP) :
    (encVectorQP v).length = vectorQPBinarySize v := by
  simp only [encVectorQP, vectorQPBinarySize, List.length_append,
    natToBytesLE_length, join_map_length_sum, List.map_map]
  simp [encPolyQP_length]

lemma encRow_length (row : List VectorQP) :
    (encRow row).length = rowBinarySize row := by
  simp only [encRow, rowBinarySize, List.length_append, natToBytesLE_length,
    join_map_length_sum, List.map_map]
  simp [encVectorQP_length]

lemma encGC_length (gc : GadgetCiphertext) :
    (encGC gc).length = gcBinarySize gc := by
  simp only [encGC, gcBinarySize, List.length_append, natToBytesLE_length,
    join_map_length_sum, List.map_map]
  simp [encRow_length]

end Lattigo

namespace Lattigo

/-- Read exactly `k` bytes from the stream (fails on a truncated stream). -/
def readNBytes (k : Nat) (l : List Nat) : Option (List Nat × List Nat) :=
  if k ≤ l.length then some (l.take k, l.drop k) else none

/-- Read one little-endian `uint64`. -/
def readUint64 (l : List Nat) : Option (Nat × List Nat) :=
  (readNBytes 8 l).map fun br => (bytesToNatLE br.1, br.2)

/-- Read `k` consecutive elements with the element reader `rd`. -/
def readList {α : Type} (rd : List Nat → Option (α × List Nat)) :
    Nat → List Nat → Option (List α × List Nat)
  | 0, l => some ([], l)
  | k + 1, l =>
      (rd l).bind fun xl =>
        (readList rd k xl.2).map fun xsl => (xl.1 :: xsl.1, xsl.2)

/-- Decode a `uint64` sequence (8-byte count, then the elements). -/
def decUintVec (l : List Nat) : Option (List Nat × List Nat) :=
  (readUint64 l).bind fun nl => readList readUint64 nl.1 nl.2

/-- Decode a `ring.Poly` coefficient matrix. -/
def decPoly (l : List Nat) : Option (Poly × List Nat) :=
  (readUint64 l).bind fun nl =>
    (readList decUintVec nl.1 nl.2).map fun cl => (⟨cl.1⟩, cl.2)

/-- Decode a `ringqp.Poly` (Q-part then P-part). -/
def decPolyQP (l : List Nat) : Option (PolyQP × List Nat) :=
  (decPoly l).bind fun ql => (decPoly ql.2).map fun pl => (⟨ql.1, pl.1⟩, pl.2)

/-- Decode a `VectorQP`. -/
def decVectorQP (l : List Nat) : Option (VectorQP × List Nat) :=
  (readUint64 l).bind fun nl => readList decPolyQP nl.1 nl.2

/-- Decode one row of the gadget table. -/
def decRow (l : List Nat) : Option (List VectorQP × List Nat) :=
  (readUint64 l).bind fun nl => readList decVectorQP nl.1 nl.2

/-- Decode a `GadgetCiphertext` payload. -/
def decGC (l : List Nat) : Option (GadgetCiphertext × List Nat) :=
  (readUint64 l).bind fun bl =>
    (readUint64 bl.2).bind fun nl =>
      (readList decRow nl.1 nl.2).map fun rl => (⟨bl.1, rl.1⟩, rl.2)

/-- `EvaluationKey.ReadFrom` (part_003 lines 490-517): decode the gadget
payload, then — iff the decoded key is compressed — read the 32-byte seed.
Returns the decoded key and the remaining stream. -/
def EvaluationKey.ReadFrom (l : List Nat) : Option (EvaluationKey × List Nat) :=
  (decGC l).bind fun gl =>
    if (EvaluationKey.mk gl.1 none).IsCompressed then
      (readNBytes 32 gl.2).map fun sl => (⟨gl.1, some sl.1⟩, sl.2)
    else some (⟨gl.1, none⟩, gl.2)

/-- Go `uint64` bound on every coefficient and on every encoded length. -/
abbrev wfLimb (v : List Nat) : Prop :=
  v.length < 2 ^ 64 ∧ ∀ c ∈ v, c < 2 ^ 64

abbrev wfPoly (p : Poly) : Prop :=
  p.coeffs.length < 2 ^ 64 ∧ ∀ limb ∈ p.coeffs, wfLimb limb

abbrev wfPolyQP (pq : PolyQP) : Prop := wfPoly pq.Q ∧ wfPoly pq.P

abbrev wfVectorQP (v : VectorQP) : Prop :=
  List.length v < 2 ^ 64 ∧ ∀ pq ∈ (v : List PolyQP), wfPolyQP pq

abbrev wfRow (row : List VectorQP) : Prop :=
  row.length < 2 ^ 64 ∧ ∀ v ∈ row, wfVectorQP v

abbrev wfGC (gc : GadgetCiphertext) : Prop :=
  gc.BaseTwoDecomposition < 2 ^ 64 ∧ gc.Value.length < 2 ^ 64
    ∧ ∀ row ∈ gc.Value, wfRow row

/-- A present seed is the 32-byte array `*[32]byte`. -/
abbrev wfSeed : Option (List Nat) → Prop
  | none => True
  | some s => s.length = 32

lemma readNBytes_append (l rest : List Nat) :
    readNBytes l.length (l ++ rest) = some (l, rest) := by
  have h1 : (l ++ rest).take l.length = l := by simp
  have h2 : (l ++ rest).drop l.length = rest := by simp
  simp [readNBytes, h1, h2]

lemma readUint64_append (n : Nat) (h : n < 2 ^ 64) (rest : List Nat) :
    readUint64 (natToBytesLE 8 n ++ rest) = some (n, rest) := by
  have hb : readNBytes 8 (natToBytesLE 8 n ++ rest)
      = some (natToBytesLE 8 n, rest) := by
    have := readNBytes_append (natToBytesLE 8 n) rest
    rwa [natToBytesLE_length] at this
  simp [readUint64, hb, bytesToNatLE_natToBytesLE]
  omega

lemma readList_append {α : Type} (rd : List Nat → Option (α × List Nat))
    (enc : α → List Nat) (xs : List α)
    (h : ∀ x ∈ xs, ∀ r, rd (enc x ++ r) = some (x, r)) (rest : List Nat) :
    readList rd xs.length ((xs.map enc).join ++ rest) = some (xs, rest) := by
  induction xs with
  | nil => rfl
  | cons x xs ih =>
      have hx := h x (by simp) ((xs.map enc).join ++ rest)
      have ht := ih fun y hy r => h y (by simp [hy]) r
      simp only [List.map_cons, List.join_cons, List.length_cons,
        List.append_assoc]
      simp only [readList]
      rw [hx]
      simp [ht]

end Lattigo

namespace Lattigo

lemma decUintVec_append (v : List Nat) (hv : wfLimb v) (rest : List Nat) :
    decUintVec (encUintVec v ++ rest) = some (v, rest) := by
  have h1 := readUint64_append v.length hv.1 ((v.map (natToBytesLE 8)).join ++ rest)
  have h2 := readList_append readUint64 (natToBytesLE 8) v
    (fun x hx r => readUint64_append x (hv.2 x hx) r) rest
  simp only [encUintVec, List.append_assoc, decUintVec]
  rw [h1]
  simp [h2]

lemma decPoly_append (p : Poly) (hp : wfPoly p) (rest : List Nat) :
    decPoly (encPoly p ++ rest) = some (p, rest) := by
  have h1 := readUint64_append p.coeffs.length hp.1
    ((p.coeffs.map encUintVec).join ++ rest)
  have h2 := readList_append decUintVec encUintVec p.coeffs
    (fun x hx r => decUintVec_append x (hp.2 x hx) r) rest
  simp only [encPoly, List.append_assoc, decPoly]
  rw [h1]
  simp [h2]

lemma decPolyQP_append (pq : PolyQP) (h : wfPolyQP pq) (rest : List Nat) :
    decPolyQP (encPolyQP pq ++ rest) = some (pq, rest) := by
  have h1 := decPoly_append pq.Q h.1 (encPoly pq.P ++ rest)
  have h2 := decPoly_append pq.P h.2 rest
  simp only [encPolyQP, List.append_assoc, decPolyQP]
  rw [h1]
  simp [h2]

lemma decVectorQP_append (v : VectorQP) (h : wfVectorQP v) (rest : List Nat) :
    decVectorQP (encVectorQP v ++ rest) = some (v, rest) := by
  have h1 := readUint64_append (List.length v) h.1 ((v.map encPolyQP).join ++ rest)
  have h2 := readList_append decPolyQP encPolyQP v
    (fun x hx r => decPolyQP_append x (h.2 x hx) r) rest
  simp only [encVectorQP, List.append_assoc, decVectorQP]
  rw [h1]
  simp [h2]

lemma decRow_append (row : List VectorQP) (h : wfRow row) (rest : List Nat) :
    decRow (encRow row ++ rest) = some (row, rest) := by
  have h1 := readUint64_append row.length h.1 ((row.map encVectorQP).join ++ rest)
  have h2 := readList_append decVectorQP encVectorQP row
    (fun x hx r => decVectorQP_append x (h.2 x hx) r) rest
  simp only [encRow, List.append_assoc, decRow]
  rw [h1]
  simp [h2]

lemma decGC_append (gc : GadgetCiphertext) (h : wfGC gc) (rest : List Nat) :
    decGC (encGC gc ++ rest) = some (gc, rest) := by
  have h1 := readUint64_append gc.BaseTwoDecomposition h.1
    (natToBytesLE 8 gc.Value.length ++ ((gc.Value.map encRow).join ++ rest))
  have h2 := readUint64_append gc.Value.length h.2.1
    ((gc.Value.map encRow).join ++ rest)
  have h3 := readList_append decRow encRow gc.Value
    (fun x hx r => decRow_append x (h.2.2 x hx) r) rest
  simp only [encGC, List.append_assoc, decGC]
  rw [h1]
  simp [h2, h3]

/-- C3: `WriteTo` writes exactly `BinarySize()` bytes — the gadget payload
followed by the 32-byte seed iff the key is compressed — and decoding those
bytes with `ReadFrom` yields a key equal to the original (and consumes
exactly those bytes, leaving any trailing stream intact). The hypotheses are
the Go representation invariants: `uint64` bounds, a 32-byte seed array, and
the documented seed-iff-compressed invariant (part_003 line 295). -/
theorem C3_evaluationkey_serialization_roundtrip (evk : EvaluationKey)
    (rest : List Nat) (hwf : wfGC evk.gc) (hs : wfSeed evk.Seed)
    (hinv : evk.Seed.isSome = evk.IsCompressed) :
    exceptIsOk evk.WriteTo = true
    ∧ ∀ bs, evk.WriteTo = .ok bs →
        bs.length = evk.BinarySize
        ∧ EvaluationKey.ReadFrom (bs ++ rest) = some (evk, rest) := by
  obtain ⟨gc, seed⟩ := evk
  cases seed with
  | some s =>
      have hcomp : (EvaluationKey.mk gc (some s)).IsCompressed = true := by
        simpa using hinv.symm
      have hcomp' : (EvaluationKey.mk gc none).IsCompressed = true := hcomp
      have hw : (EvaluationKey.mk gc (some s)).WriteTo = .ok (encGC gc ++ s) := by
        simp [EvaluationKey.WriteTo, hcomp]
      have hs32 : s.length = 32 := hs
      refine ⟨by simp [hw, exceptIsOk], fun bs hbs => ?_⟩
      rw [hw] at hbs
      obtain rfl : encGC gc ++ s = bs := by
        simpa using hbs
      constructor
      · simp [EvaluationKey.BinarySize, encGC_length, hs32]
      · have hrd : readNBytes 32 (s ++ rest) = some (s, rest) := by
          have := readNBytes_append s rest
          rwa [hs32] at this
        simp only [List.append_assoc, EvaluationKey.ReadFrom,
          decGC_append gc hwf (s ++ rest)]
        simp [hcomp', hrd]
  | none =>
      have hcomp : (EvaluationKey.mk gc none).IsCompressed = false := by
        simpa using hinv.symm
      have hw : (EvaluationKey.mk gc none).WriteTo = .ok (encGC gc) := by
        simp [EvaluationKey.WriteTo, hcomp]
      refine ⟨by simp [hw, exceptIsOk], fun bs hbs => ?_⟩
      rw [hw] at hbs
      obtain rfl : encGC gc = bs := by simpa using hbs
      constructor
      · simp [EvaluationKey.BinarySize, encGC_length]
      · simp only [EvaluationKey.ReadFrom, decGC_append gc hwf rest]
        simp [hcomp]

theorem C3_evaluationkey_serialization_roundtrip_witness :
    (encGC (genEvaluationKey witParams 0 (-1) 0 true (List.replicate 32 0)).gc
        ++ List.replicate 32 0).length
      = (genEvaluationKey witParams 0 (-1) 0 true (List.replicate 32 0)).BinarySize
    ∧ EvaluationKey.ReadFrom
        ((encGC (genEvaluationKey witParams 0 (-1) 0 true (List.replicate 32 0)).gc
          ++ List.replicate 32 0) ++ [9])
      = some (genEvaluationKey witParams 0 (-1) 0 true (List.replicate 32 0), [9]) :=
  (C3_evaluationkey_serialization_roundtrip
      (genEvaluationKey witParams 0 (-1) 0 true (List.replicate 32 0)) [9]
      (by decide) rfl (by decide)).2
    (encGC (genEvaluationKey witParams 0 (-1) 0 true (List.replicate 32 0)).gc
      ++ List.replicate 32 0) rfl

end Lattigo
